import Mathlib

/-!
# Verification of the hamster short-video concept app core logic

This file is a shallow embedding, in Lean 4, of the state-bearing core of
`src/App.tsx` (and of the data model in the repository's types file):

* the caption extractor `copyCaptions` (App.tsx lines 129-148),
* the recommendation input validation `handleRecommend` (lines 69-88),
* the library save logic `handleSaveConcept` (lines 150-167),
* the startup load of the library from durable storage (lines 35-44),
* the selection / image-preview event handling `handleSelectConcept`
  (lines 90-102),
* the lazily created shared audio context of `handleGenerateAudio`
  (lines 104-127),
* and the PCM decoding contract of `decodeAudioData` (which lives in
  `services/geminiService.ts`, outside the available sources, and is
  therefore modelled from the design document).

JavaScript strings are modelled as `List Char`; the helper functions
(`splitOnNl`, `joinNl`, `splitAllSep`, `trimList`, `stripQuotes`, ...)
are direct models of the JavaScript string methods the source uses
(`split`, `join`, `trim`, `replace` with the anchored quote regex).
-/

set_option autoImplicit false

/-! ## Data model (from the repository's type declarations) -/

/-- `ContentCategory` from the types file: `'QUOTES' | 'SELF_IMPROVEMENT'`. -/
inductive ContentCategory where
  | QUOTES
  | SELF_IMPROVEMENT
  deriving DecidableEq, Repr

/-- `VisualMode` from the types file. -/
inductive VisualMode where
  | REALISTIC
  | ANIMATION
  | OIL_PAINTING
  | ORIENTAL_PAINTING
  deriving DecidableEq, Repr

/-- `VisualScene` from the types file. -/
structure VisualScene where
  sceneNumber : Nat
  description : String
  prompt : String
  deriving DecidableEq, Repr

/-- `ShortsConcept` from the types file. -/
structure ShortsConcept where
  id : String
  title : String
  hook : String
  detailedScript : String
  visualScenes : List VisualScene
  visualStyle : String
  targetAudience : String
  personalizedReason : String
  deriving DecidableEq, Repr

/-- `SavedConcept` from App.tsx lines 13-16:
`interface SavedConcept extends ShortsConcept` with `savedAt` and `category`. -/
structure SavedConcept extends ShortsConcept where
  savedAt : Nat
  category : ContentCategory
  deriving DecidableEq, Repr

/-! ## String primitives

The caption extractor works on JavaScript strings; we model them as
`List Char` so that every operation is a plain computable function.
-/

/-- Model of `String.prototype.split('\n')`: split at every newline,
keeping empty chunks (`'a\nb\n'` gives `['a','b','']`, `''` gives `['']`). -/
def splitOnNl : List Char → List (List Char)
  | [] => [[]]
  | c :: rest =>
    if c = '\n' then [] :: splitOnNl rest
    else
      match splitOnNl rest with
      | [] => [[c]]
      | p :: ps => (c :: p) :: ps

/-- Model of `Array.prototype.join('\n')`. -/
def joinNl : List (List Char) → List Char
  | [] => []
  | [l] => l
  | l :: l2 :: rest => l ++ '\n' :: joinNl (l2 :: rest)

/-- First occurrence of `sep` in a list: `splitFirst sep s = some (b, a)`
when `s = b ++ sep ++ a` and `sep` does not occur earlier; `none` when
`sep` (assumed non-empty) does not occur in `s`. -/
def splitFirst (sep : List Char) : List Char → Option (List Char × List Char)
  | [] => none
  | c :: rest =>
    if sep.isPrefixOf (c :: rest) then some ([], (c :: rest).drop sep.length)
    else (splitFirst sep rest).map (fun p => (c :: p.1, p.2))

/-- Fuelled worker for `splitAllSep`; one unit of fuel is spent per
character, so any `fuel ≥ s.length` gives the intended JavaScript
`String.prototype.split(sep)` behaviour for a non-empty `sep`. -/
def splitAllGo (sep : List Char) : Nat → List Char → List (List Char)
  | _, [] => [[]]
  | 0, c :: rest => [c :: rest]
  | fuel + 1, c :: rest =>
    if sep.isPrefixOf (c :: rest) then
      [] :: splitAllGo sep fuel ((c :: rest).drop sep.length)
    else
      match splitAllGo sep fuel rest with
      | [] => [[c]]
      | p :: ps => (c :: p) :: ps

/-- Model of `String.prototype.split(sep)` for a non-empty separator:
every non-overlapping leftmost occurrence of `sep` separates two chunks. -/
def splitAllSep (sep s : List Char) : List (List Char) :=
  splitAllGo sep s.length s

/-- Model of `String.prototype.trim()`: remove leading and trailing
whitespace characters. -/
def trimList (s : List Char) : List Char :=
  ((s.dropWhile Char.isWhitespace).reverse.dropWhile Char.isWhitespace).reverse

/-- Remove one leading literal double-quote character if present
(the `^"` alternative of the regex `/^"|"$/g`). -/
def dropLeadQuote (s : List Char) : List Char :=
  match s with
  | [] => []
  | c :: t => if c = '"' then t else c :: t

/-- Remove one trailing literal double-quote character if present
(the `"$` alternative of the regex `/^"|"$/g`). -/
def dropTailQuote (s : List Char) : List Char :=
  match s.reverse with
  | [] => s
  | c :: t => if c = '"' then t.reverse else s

/-- Model of `.replace(/^"|"$/g, '')`: remove one leading and one
trailing literal double-quote character if present (only the outermost
pair, not recursively). -/
def stripQuotes (s : List Char) : List Char :=
  dropTailQuote (dropLeadQuote s)

/-! ## Caption extractor (`copyCaptions`, App.tsx lines 129-148) -/

/-- The caption marker `'[자막]'` looked for by `copyCaptions`. -/
def marker : List Char := ['[', '자', '막', ']']

/-- Model of `l.includes('[자막]')`: the marker occurs somewhere in `l`. -/
def includesMarker (l : List Char) : Bool :=
  (splitFirst marker l).isSome

/-- Per-line cleaning step of `copyCaptions` (App.tsx lines 134-137):
`const parts = l.split('[자막]');
 return parts.length > 1 ? parts[1].trim().replace(/^"|"$/g, '') : '';`. -/
def cleanLine (l : List Char) : List Char :=
  let parts := splitAllSep marker l
  if parts.length > 1 then stripQuotes (trimList ((parts.drop 1).headD []))
  else []

/-- The list of cleaned caption lines produced by `copyCaptions`
(App.tsx lines 131-138): split into lines, keep lines containing the
marker, clean each, drop the ones that became empty. -/
def extractLines (script : List Char) : List (List Char) :=
  (((splitOnNl script).filter (fun l => includesMarker l)).map cleanLine).filter
    (fun s => !s.isEmpty)

/-- The extracted caption text of `copyCaptions` (App.tsx lines 131-139):
the cleaned caption lines joined with a newline. -/
def extractCaptions (script : List Char) : List Char :=
  joinNl (extractLines script)

/-- Modelled from the spec: the caption-extraction algorithm as the design
document words it, where for each retained line the *entire substring
following the marker* is taken (then trimmed, quote-stripped, dropped if
empty, and joined).  Used to compare the spec's wording with the code. -/
def extractCaptionsSpec (script : List Char) : List Char :=
  joinNl
    ((((splitOnNl script).filter (fun l => includesMarker l)).map
      (fun l =>
        match splitFirst marker l with
        | some (_, a) => stripQuotes (trimList a)
        | none => [])).filter (fun s => !s.isEmpty))

/-- The substring of `l` strictly between the first and the second
occurrence of the marker (up to the end of the line when the marker
occurs only once); `[]` when the marker does not occur. -/
def segmentAfterMarker (l : List Char) : List Char :=
  match splitFirst marker l with
  | none => []
  | some (_, a) =>
    match splitFirst marker a with
    | none => a
    | some (b, _) => b

/-- The caption-extraction pipeline as amended: identical to the spec's
wording except that the retained substring stops at the next occurrence
of the marker on the same line. -/
def extractCaptionsAmended (script : List Char) : List Char :=
  joinNl
    ((((splitOnNl script).filter (fun l => includesMarker l)).map
      (fun l => stripQuotes (trimList (segmentAfterMarker l)))).filter
      (fun s => !s.isEmpty))

/-- Re-wrap an extracted caption text with the marker: each output line
is prefixed with `'[자막]'` again, as in the idempotence property of the
design document. -/
def rewrapCaptions (t : List Char) : List Char :=
  joinNl ((splitOnNl t).map (fun l => marker ++ l))

/-! ## Recommendation request validation (`handleRecommend`, App.tsx lines 69-88) -/

/-- Outcome of `handleRecommend`: either the inline validation error
(`alert(...); return;` before any service call) or the single outbound
request `getConceptRecommendations(category, keywords, visualMode,
philosopherName)`. -/
inductive RecommendOutcome where
  | validationError
  | requestIssued (category : ContentCategory) (keywords : List Char)
      (visualMode : VisualMode) (philosopherName : List Char)
  deriving DecidableEq, Repr

/-- Model of the validation at App.tsx line 70:
`if (!keywords.trim() && (category === 'SELF_IMPROVEMENT' || !philosopherName.trim()))`
(a whitespace-only JavaScript string is falsy after `trim()`);
otherwise the one request is issued with the current inputs. -/
def handleRecommend (category : ContentCategory) (keywords : List Char)
    (visualMode : VisualMode) (philosopherName : List Char) : RecommendOutcome :=
  if trimList keywords = [] ∧
      (category = ContentCategory.SELF_IMPROVEMENT ∨ trimList philosopherName = []) then
    RecommendOutcome.validationError
  else
    RecommendOutcome.requestIssued category keywords visualMode philosopherName

/-! ## Library store (`handleSaveConcept`, App.tsx lines 150-167) -/

/-- Result of a save: the success path or the `"이미 저장된 컨셉입니다."`
early return for an already-present id. -/
inductive SaveResult where
  | ok
  | alreadyExists
  deriving DecidableEq, Repr

/-- Model of `handleSaveConcept`: if `savedConcepts.find(c => c.id ===
selectedConcept.id)` hits, return unchanged with `alreadyExists`;
otherwise prepend `{...selectedConcept, savedAt: Date.now(), category}`. -/
def handleSaveConcept (selected : ShortsConcept) (category : ContentCategory)
    (now : Nat) (saved : List SavedConcept) : SaveResult × List SavedConcept :=
  if saved.any (fun c => c.id == selected.id) then
    (SaveResult.alreadyExists, saved)
  else
    (SaveResult.ok, ⟨selected, now, category⟩ :: saved)

/-- Model of the startup load effect (App.tsx lines 35-44).  `stored` is
`localStorage.getItem('shortsmind_saved')` (`none` models `null`; the
empty string is falsy in the `if (stored)` guard).  `parse` models
`JSON.parse` on the stored payload: `none` when parsing throws.  The
state starts as the `useState` initial value `[]` and is only replaced
on a successful parse; a parse failure is caught and logged. -/
def loadSavedConcepts (parse : List Char → Option (List SavedConcept))
    (stored : Option (List Char)) : List SavedConcept :=
  match stored with
  | none => []
  | some s => if s.isEmpty then [] else (parse s).getD []

/-! ## Selection and image preview (`handleSelectConcept`, App.tsx lines 90-102) -/

/-- Image prompt chosen at App.tsx line 95:
`concept.visualScenes[0]?.prompt || concept.title` — the title is the
fallback both when there is no scene (`undefined` is falsy) and when the
first scene's prompt is the empty string (also falsy). -/
def imagePromptForConcept (c : ShortsConcept) : String :=
  match c.visualScenes with
  | [] => c.title
  | s :: _ => if s.prompt = "" then c.title else s.prompt

/-- The slice of component state touched by concept selection and image
preview: `selectedConcept`, `previewImage`, `imageLoading`. -/
structure PreviewState where
  selectedConcept : Option ShortsConcept
  previewImage : Option String
  imageLoading : Bool
  deriving DecidableEq, Repr

/-- Events of one selection episode, as scheduled on the single event
loop: a click selects a concept (and dispatches an image request for
it), and each dispatched request later resolves with an image or fails. -/
inductive PreviewEvent where
  | selectConcept (c : ShortsConcept)
  | imageResolved (c : ShortsConcept) (img : String)
  | imageFailed (c : ShortsConcept)
  deriving DecidableEq, Repr

/-- One step of `handleSelectConcept`.  `selectConcept` is the
synchronous prefix (lines 91-93): set the selection, clear the preview,
raise the loading flag.  `imageResolved`/`imageFailed` are the
continuation after `await generateBackgroundImage(...)` (lines 96-100):
the source stores the resolved image and lowers the loading flag
*unconditionally* — it never compares the request's concept `c` with the
current selection. -/
def stepPreview (s : PreviewState) : PreviewEvent → PreviewState
  | PreviewEvent.selectConcept c => ⟨some c, none, true⟩
  | PreviewEvent.imageResolved _ img => ⟨s.selectedConcept, some img, false⟩
  | PreviewEvent.imageFailed _ => ⟨s.selectedConcept, s.previewImage, false⟩

/-- Run a sequence of selection-episode events from a starting state. -/
def runPreview (s : PreviewState) (es : List PreviewEvent) : PreviewState :=
  es.foldl stepPreview s

/-- A trace is well formed when every resolution (or failure) event
corresponds to exactly one image request dispatched by an earlier
`selectConcept` event and not yet resolved. -/
def wfTraceGo (dispatched : List ShortsConcept) : List PreviewEvent → Bool
  | [] => true
  | PreviewEvent.selectConcept c :: rest => wfTraceGo (c :: dispatched) rest
  | PreviewEvent.imageResolved c _ :: rest =>
    dispatched.contains c && wfTraceGo (dispatched.erase c) rest
  | PreviewEvent.imageFailed c :: rest =>
    dispatched.contains c && wfTraceGo (dispatched.erase c) rest

/-- Well-formedness of a whole trace (no pending requests at the start). -/
def wfTrace (es : List PreviewEvent) : Bool :=
  wfTraceGo [] es

/-- The component's initial preview state (`useState` initial values). -/
def initialPreviewState : PreviewState := ⟨none, none, false⟩

/-- A concrete concept used to exercise the selection episode. -/
def conceptA : ShortsConcept :=
  ⟨"concept-a", "Title A", "Hook A", "", [⟨1, "scene", "prompt-a"⟩], "", "", ""⟩

/-- A second concrete concept with a different id. -/
def conceptB : ShortsConcept :=
  ⟨"concept-b", "Title B", "Hook B", "", [⟨1, "scene", "prompt-b"⟩], "", "", ""⟩

/-! ## Shared audio context (`handleGenerateAudio`, App.tsx lines 104-127) -/

/-- One audio-preview invocation's use of `audioContextRef` (App.tsx
lines 110-113): if the ref is empty a fresh context (identified by
`fresh`) is created and stored, otherwise the stored one is taken; the
returned pair is (context used for this playback, ref afterwards).
Nothing in the component ever closes the context or clears the ref. -/
def audioInvoke (ctxRef : Option Nat) (fresh : Nat) : Nat × Option Nat :=
  match ctxRef with
  | none => (fresh, some fresh)
  | some c => (c, some c)

/-- Run a session of audio-preview invocations; `freshes` supplies the
identity a newly created context would get at each invocation.  Returns
the contexts used for each playback and the final ref. -/
def runAudioSession (ctxRef : Option Nat) : List Nat → List Nat × Option Nat
  | [] => ([], ctxRef)
  | f :: rest =>
    let step := audioInvoke ctxRef f
    let later := runAudioSession step.2 rest
    (step.1 :: later.1, later.2)

/-! ## PCM decoding (`decodeAudioData` in `services/geminiService.ts`) -/

/-- Modelled from the spec: a 16-bit signed little-endian sample built
from a byte pair (`lo` first), as described in the design document's
Audio Decode Pipeline section; the service source is not part of the
available sources. -/
def int16FromBytes (lo hi : Nat) : Int :=
  if lo + 256 * hi < 32768 then (lo + 256 * hi : Int)
  else (lo + 256 * hi : Int) - 65536

/-- Consecutive byte pairs of a byte sequence; a trailing incomplete
sample (odd byte) is dropped. -/
def pcmBytePairs : List Nat → List (Nat × Nat)
  | [] => []
  | [_] => []
  | lo :: hi :: rest => (lo, hi) :: pcmBytePairs rest

/-- A decoded waveform: the sample rate as supplied by the caller and
one list of normalized samples per channel. -/
structure Waveform where
  sampleRate : Nat
  channels : List (List ℚ)
  deriving DecidableEq, Repr

/-- Modelled from the spec: `pcmToWaveform(bytes, sampleRate,
channelCount)` — interpret the bytes as interleaved signed 16-bit
little-endian PCM, normalize each sample by dividing by 32768, and
de-interleave into `channelCount` channels of
`floor(byteLength / 2 / channelCount)` samples each.  The service source
(`decodeAudioData`) is not part of the available sources. -/
def pcmToWaveform (bytes : List Nat) (sampleRate channelCount : Nat) : Waveform :=
  let samples : List ℚ :=
    (pcmBytePairs bytes).map (fun p => (int16FromBytes p.1 p.2 : ℚ) / 32768)
  let perChannel := samples.length / channelCount
  ⟨sampleRate,
    (List.range channelCount).map (fun ch =>
      (List.range perChannel).map (fun k => samples.getD (k * channelCount + ch) 0))⟩

/-! ## Auxiliary notions and concrete test data -/

/-- `SubSeg t s`: `t` is a contiguous segment of `s`. -/
def SubSeg (t s : List Char) : Prop :=
  ∃ u v, s = u ++ t ++ v

/-- A script line carrying the caption marker twice. -/
def scriptTwoMarkers : List Char :=
  marker ++ ['a'] ++ marker ++ ['b']

/-- A script whose caption text is a quoted run of quote characters. -/
def scriptTripleQuote : List Char :=
  marker ++ [' ', '"', '"', '"']

/-- A well-behaved one-line script. -/
def scriptHello : List Char :=
  marker ++ [' ', 'h', 'e', 'l', 'l', 'o']

/-- A third concrete concept with yet another id. -/
def conceptC : ShortsConcept :=
  ⟨"concept-c", "Title C", "Hook C", "", [], "", "", ""⟩

/-- A concrete concept whose first scene has an empty prompt. -/
def conceptEmptyPrompt : ShortsConcept :=
  ⟨"concept-e", "The Title", "Hook E", "", [⟨1, "desc", ""⟩], "", "", ""⟩

/-! ## Lemmas about the string primitives -/

theorem isPrefixOf_iff_exists (sep : List Char) :
    ∀ (s : List Char), sep.isPrefixOf s = true ↔ ∃ t, s = sep ++ t := by
  induction sep with
  | nil => intro s; simp [List.isPrefixOf]
  | cons c sp ih =>
    intro s
    cases s with
    | nil => simp [List.isPrefixOf]
    | cons d rest =>
      simp only [List.isPrefixOf, Bool.and_eq_true, beq_iff_eq, List.cons_append,
        List.cons.injEq]
      constructor
      · rintro ⟨rfl, h⟩
        obtain ⟨t, rfl⟩ := (ih rest).mp h
        exact ⟨t, rfl, rfl⟩
      · rintro ⟨t, rfl, rfl⟩
        exact ⟨rfl, (ih _).mpr ⟨t, rfl⟩⟩

theorem isPrefixOf_append_self (sep t : List Char) : sep.isPrefixOf (sep ++ t) = true :=
  (isPrefixOf_iff_exists sep (sep ++ t)).mpr ⟨t, rfl⟩

theorem splitAllGo_nil (sep : List Char) (fuel : Nat) : splitAllGo sep fuel [] = [[]] := by
  cases fuel <;> rfl

theorem splitAllGo_congr (sep : List Char) (hsep : sep ≠ []) :
    ∀ (f1 : Nat) (s : List Char) (f2 : Nat), s.length ≤ f1 → s.length ≤ f2 →
      splitAllGo sep f1 s = splitAllGo sep f2 s := by
  intro f1
  induction f1 with
  | zero =>
    intro s f2 h1 _
    have hs : s = [] := List.length_eq_zero.mp (Nat.le_zero.mp h1)
    subst hs
    rw [splitAllGo_nil, splitAllGo_nil]
  | succ f1 ih =>
    intro s f2 h1 h2
    cases s with
    | nil => rw [splitAllGo_nil, splitAllGo_nil]
    | cons c rest =>
      cases f2 with
      | zero => simp at h2
      | succ f2 =>
        have hsl : 1 ≤ sep.length := List.length_pos.mpr hsep
        simp only [splitAllGo]
        by_cases hp : sep.isPrefixOf (c :: rest) = true
        · rw [if_pos hp, if_pos hp]
          have hd1 : ((c :: rest).drop sep.length).length ≤ f1 := by
            rw [List.length_drop]
            simp only [List.length_cons] at h1 ⊢
            omega
          have hd2 : ((c :: rest).drop sep.length).length ≤ f2 := by
            rw [List.length_drop]
            simp only [List.length_cons] at h2 ⊢
            omega
          rw [ih _ f2 hd1 hd2]
        · rw [if_neg hp, if_neg hp]
          have hr1 : rest.length ≤ f1 := by simp only [List.length_cons] at h1; omega
          have hr2 : rest.length ≤ f2 := by simp only [List.length_cons] at h2; omega
          rw [ih rest f2 hr1 hr2]

theorem splitAllGo_eq_splitAllSep (sep : List Char) (hsep : sep ≠ []) (fuel : Nat)
    (s : List Char) (h : s.length ≤ fuel) : splitAllGo sep fuel s = splitAllSep sep s :=
  splitAllGo_congr sep hsep fuel s s.length h (Nat.le_refl _)

theorem splitAllGo_ne_nil (sep : List Char) :
    ∀ (fuel : Nat) (s : List Char), splitAllGo sep fuel s ≠ [] := by
  intro fuel
  induction fuel with
  | zero => intro s; cases s <;> simp [splitAllGo]
  | succ fuel ih =>
    intro s
    cases s with
    | nil => simp [splitAllGo]
    | cons c rest =>
      simp only [splitAllGo]
      by_cases hp : sep.isPrefixOf (c :: rest) = true
      · simp [hp]
      · rw [if_neg hp]
        cases h : splitAllGo sep fuel rest with
        | nil => simp
        | cons p ps => simp

theorem splitAllSep_ne_nil (sep s : List Char) : splitAllSep sep s ≠ [] :=
  splitAllGo_ne_nil sep s.length s

theorem splitAllGo_of_splitFirst_none (sep : List Char) :
    ∀ (s : List Char), splitFirst sep s = none →
      ∀ (fuel : Nat), splitAllGo sep fuel s = [s] := by
  intro s
  induction s with
  | nil => intro _ fuel; rw [splitAllGo_nil]
  | cons c rest ih =>
    intro h fuel
    by_cases hp : sep.isPrefixOf (c :: rest) = true
    · rw [splitFirst, if_pos hp] at h
      simp at h
    · rw [splitFirst, if_neg hp] at h
      have hrest : splitFirst sep rest = none := Option.map_eq_none'.mp h
      cases fuel with
      | zero => rfl
      | succ fuel =>
        simp only [splitAllGo]
        rw [if_neg hp, ih hrest fuel]

theorem splitAllSep_of_splitFirst_none (sep s : List Char)
    (h : splitFirst sep s = none) : splitAllSep sep s = [s] :=
  splitAllGo_of_splitFirst_none sep s h s.length

theorem splitFirst_eq_append (sep : List Char) :
    ∀ (s b a : List Char), splitFirst sep s = some (b, a) → s = b ++ sep ++ a := by
  intro s
  induction s with
  | nil => intro b a h; simp [splitFirst] at h
  | cons c rest ih =>
    intro b a h
    by_cases hp : sep.isPrefixOf (c :: rest) = true
    · rw [splitFirst, if_pos hp] at h
      obtain ⟨t, ht⟩ := (isPrefixOf_iff_exists sep (c :: rest)).mp hp
      simp only [Option.some.injEq, Prod.mk.injEq] at h
      obtain ⟨hb, ha⟩ := h
      subst hb
      rw [ht, List.drop_left] at ha
      subst ha
      simp [ht]
    · rw [splitFirst, if_neg hp] at h
      obtain ⟨⟨b', a'⟩, hb', heq⟩ := Option.map_eq_some'.mp h
      simp only [Prod.mk.injEq] at heq
      obtain ⟨hbb, haa⟩ := heq
      subst hbb
      subst haa
      have hr := ih b' a' hb'
      simp [hr]

theorem splitFirst_sep_append (sep : List Char) (hsep : sep ≠ []) (l : List Char) :
    splitFirst sep (sep ++ l) = some ([], l) := by
  cases sep with
  | nil => exact absurd rfl hsep
  | cons c sp =>
    have hp : (c :: sp).isPrefixOf (c :: (sp ++ l)) = true :=
      isPrefixOf_append_self (c :: sp) l
    show splitFirst (c :: sp) (c :: (sp ++ l)) = some ([], l)
    rw [splitFirst, if_pos hp]
    simp [List.length_cons, List.drop_succ_cons, List.drop_left]

theorem splitFirst_occurs_ne_none (sep : List Char) (hsep : sep ≠ []) :
    ∀ (x y : List Char), splitFirst sep (x ++ sep ++ y) ≠ none := by
  intro x
  induction x with
  | nil =>
    intro y
    simp only [List.nil_append]
    rw [splitFirst_sep_append sep hsep y]
    simp
  | cons c x' ih =>
    intro y
    show splitFirst sep (c :: (x' ++ sep ++ y)) ≠ none
    rw [splitFirst]
    by_cases hp : sep.isPrefixOf (c :: (x' ++ sep ++ y)) = true
    · rw [if_pos hp]; simp
    · rw [if_neg hp]
      intro hcon
      exact ih y (Option.map_eq_none'.mp hcon)

theorem splitFirst_fst_none (sep : List Char) :
    ∀ (s b a : List Char), splitFirst sep s = some (b, a) → splitFirst sep b = none := by
  intro s
  induction s with
  | nil => intro b a h; simp [splitFirst] at h
  | cons c rest ih =>
    intro b a h
    by_cases hp : sep.isPrefixOf (c :: rest) = true
    · rw [splitFirst, if_pos hp] at h
      simp only [Option.some.injEq, Prod.mk.injEq] at h
      obtain ⟨hb, _⟩ := h
      subst hb
      rfl
    · rw [splitFirst, if_neg hp] at h
      obtain ⟨⟨b', a'⟩, hb', heq⟩ := Option.map_eq_some'.mp h
      simp only [Prod.mk.injEq] at heq
      obtain ⟨hbb, _⟩ := heq
      subst hbb
      have hb'n := ih b' a' hb'
      rw [splitFirst]
      have hp2 : ¬ sep.isPrefixOf (c :: b') = true := by
        intro hcon
        apply hp
        obtain ⟨t, ht⟩ := (isPrefixOf_iff_exists sep (c :: b')).mp hcon
        have hr := splitFirst_eq_append sep rest b' a' hb'
        refine (isPrefixOf_iff_exists sep (c :: rest)).mpr ⟨t ++ sep ++ a', ?_⟩
        calc c :: rest = c :: (b' ++ sep ++ a') := by rw [hr]
          _ = (c :: b') ++ (sep ++ a') := by simp [List.append_assoc]
          _ = (sep ++ t) ++ (sep ++ a') := by rw [ht]
          _ = sep ++ (t ++ sep ++ a') := by simp [List.append_assoc]
      rw [if_neg hp2, hb'n]
      rfl

theorem splitAllSep_cons (sep : List Char) (hsep : sep ≠ []) :
    ∀ (s b a : List Char), splitFirst sep s = some (b, a) →
      splitAllSep sep s = b :: splitAllSep sep a := by
  intro s
  induction s with
  | nil => intro b a h; simp [splitFirst] at h
  | cons c rest ih =>
    intro b a h
    have hsl : 1 ≤ sep.length := List.length_pos.mpr hsep
    by_cases hp : sep.isPrefixOf (c :: rest) = true
    · rw [splitFirst, if_pos hp] at h
      simp only [Option.some.injEq, Prod.mk.injEq] at h
      obtain ⟨hb, ha⟩ := h
      subst hb
      show splitAllGo sep (c :: rest).length (c :: rest) = [] :: splitAllSep sep a
      simp only [List.length_cons]
      simp only [splitAllGo]
      rw [if_pos hp]
      congr 1
      rw [← ha]
      apply splitAllGo_eq_splitAllSep sep hsep
      rw [List.length_drop]
      simp only [List.length_cons]
      omega
    · rw [splitFirst, if_neg hp] at h
      obtain ⟨⟨b', a'⟩, hb', heq⟩ := Option.map_eq_some'.mp h
      simp only [Prod.mk.injEq] at heq
      obtain ⟨hbb, haa⟩ := heq
      subst hbb
      subst haa
      show splitAllGo sep (c :: rest).length (c :: rest) = (c :: b') :: splitAllSep sep a'
      simp only [List.length_cons]
      simp only [splitAllGo]
      rw [if_neg hp]
      have hrec : splitAllGo sep rest.length rest = splitAllSep sep rest := rfl
      rw [hrec, ih b' a' hb']

theorem subSeg_trans (t s r : List Char) (h1 : SubSeg t s) (h2 : SubSeg s r) :
    SubSeg t r := by
  obtain ⟨u1, v1, rfl⟩ := h1
  obtain ⟨u2, v2, rfl⟩ := h2
  exact ⟨u2 ++ u1, v1 ++ v2, by simp [List.append_assoc]⟩

theorem mem_of_subSeg (t s : List Char) (c : Char) (h : SubSeg t s) (hc : c ∈ t) :
    c ∈ s := by
  obtain ⟨u, v, rfl⟩ := h
  simp only [List.mem_append]
  tauto

theorem splitFirst_none_of_subSeg (sep : List Char) (hsep : sep ≠ []) (t s : List Char)
    (hs : splitFirst sep s = none) (hsub : SubSeg t s) : splitFirst sep t = none := by
  cases h : splitFirst sep t with
  | none => rfl
  | some pr =>
    obtain ⟨b, a⟩ := pr
    have ht := splitFirst_eq_append sep t b a h
    obtain ⟨u, v, rfl⟩ := hsub
    exfalso
    apply splitFirst_occurs_ne_none sep hsep (u ++ b) (a ++ v)
    have heq : (u ++ b) ++ sep ++ (a ++ v) = u ++ t ++ v := by
      rw [ht]
      simp [List.append_assoc]
    rw [heq]
    exact hs

theorem exists_dropWhile_append (p : Char → Bool) :
    ∀ (s : List Char), ∃ u, s = u ++ s.dropWhile p := by
  intro s
  induction s with
  | nil => exact ⟨[], rfl⟩
  | cons c rest ih =>
    by_cases hp : p c = true
    · obtain ⟨u, hu⟩ := ih
      exact ⟨c :: u, by simp [List.dropWhile_cons, hp, ← hu]⟩
    · exact ⟨[], by simp [List.dropWhile_cons, hp]⟩

theorem subSeg_trimList (s : List Char) : SubSeg (trimList s) s := by
  obtain ⟨u, hu⟩ := exists_dropWhile_append Char.isWhitespace s
  obtain ⟨w, hw⟩ :=
    exists_dropWhile_append Char.isWhitespace (s.dropWhile Char.isWhitespace).reverse
  have h2 := congrArg List.reverse hw
  rw [List.reverse_reverse, List.reverse_append] at h2
  have key : s.dropWhile Char.isWhitespace = trimList s ++ w.reverse :=
    h2.trans rfl
  refine ⟨u, w.reverse, ?_⟩
  calc s = u ++ s.dropWhile Char.isWhitespace := hu
    _ = u ++ (trimList s ++ w.reverse) := by rw [key]
    _ = u ++ trimList s ++ w.reverse := by rw [List.append_assoc]

theorem subSeg_dropLeadQuote (s : List Char) : SubSeg (dropLeadQuote s) s := by
  cases s with
  | nil => exact ⟨[], [], rfl⟩
  | cons c t =>
    by_cases hc : c = '"'
    · subst hc
      exact ⟨['"'], [], by simp [dropLeadQuote]⟩
    · exact ⟨[], [], by simp [dropLeadQuote, hc]⟩

theorem subSeg_dropTailQuote (s : List Char) : SubSeg (dropTailQuote s) s := by
  cases h : s.reverse with
  | nil => exact ⟨[], [], by simp [dropTailQuote, h]⟩
  | cons c t =>
    by_cases hc : c = '"'
    · subst hc
      refine ⟨[], ['"'], ?_⟩
      have hs : s = t.reverse ++ ['"'] := by
        have := congrArg List.reverse h
        simpa using this
      simp [dropTailQuote, h, hs]
    · exact ⟨[], [], by simp [dropTailQuote, h, hc]⟩

theorem subSeg_stripQuotes (s : List Char) : SubSeg (stripQuotes s) s := by
  rw [stripQuotes]
  exact subSeg_trans _ _ _ (subSeg_dropTailQuote (dropLeadQuote s)) (subSeg_dropLeadQuote s)

theorem splitFirst_of_mem_splitAllSep_go (sep : List Char) (hsep : sep ≠ []) :
    ∀ (n : Nat) (s : List Char), s.length ≤ n →
      ∀ c ∈ splitAllSep sep s, splitFirst sep c = none ∧ SubSeg c s := by
  intro n
  induction n with
  | zero =>
    intro s hlen c hc
    have hs : s = [] := List.length_eq_zero.mp (Nat.le_zero.mp hlen)
    subst hs
    have hc' : c = [] := by simpa [splitAllSep, splitAllGo] using hc
    subst hc'
    exact ⟨rfl, ⟨[], [], rfl⟩⟩
  | succ n ih =>
    intro s hlen c hc
    cases h : splitFirst sep s with
    | none =>
      rw [splitAllSep_of_splitFirst_none sep s h] at hc
      have hc' : c = s := by simpa using hc
      subst hc'
      exact ⟨h, ⟨[], [], by simp⟩⟩
    | some pr =>
      obtain ⟨b, a⟩ := pr
      rw [splitAllSep_cons sep hsep s b a h] at hc
      have hs := splitFirst_eq_append sep s b a h
      rcases List.mem_cons.mp hc with hcb | hca
      · subst hcb
        exact ⟨splitFirst_fst_none sep s c a h,
          ⟨[], sep ++ a, by simp [hs, List.append_assoc]⟩⟩
      · have halen : a.length ≤ n := by
          have hlen2 := congrArg List.length hs
          simp [List.length_append] at hlen2
          have hsl : 1 ≤ sep.length := List.length_pos.mpr hsep
          omega
        obtain ⟨hnone, hsub⟩ := ih a halen c hca
        refine ⟨hnone, ?_⟩
        obtain ⟨u, v, huv⟩ := hsub
        exact ⟨b ++ sep ++ u, v, by simp [hs, huv, List.append_assoc]⟩

theorem splitFirst_of_mem_splitAllSep (sep : List Char) (hsep : sep ≠ [])
    (s c : List Char) (hc : c ∈ splitAllSep sep s) :
    splitFirst sep c = none ∧ SubSeg c s :=
  splitFirst_of_mem_splitAllSep_go sep hsep s.length s (Nat.le_refl _) c hc

theorem splitOnNl_cons_nl (rest : List Char) :
    splitOnNl ('\n' :: rest) = [] :: splitOnNl rest := by
  simp [splitOnNl]

theorem splitOnNl_cons_eq (d : Char) (rest : List Char) (hd : ¬ d = '\n')
    (p : List Char) (ps : List (List Char)) (h : splitOnNl rest = p :: ps) :
    splitOnNl (d :: rest) = (d :: p) :: ps := by
  simp only [splitOnNl, if_neg hd, h]

theorem splitOnNl_ne_nil : ∀ (s : List Char), splitOnNl s ≠ [] := by
  intro s
  induction s with
  | nil => simp [splitOnNl]
  | cons c rest ih =>
    by_cases hc : c = '\n'
    · subst hc
      rw [splitOnNl_cons_nl]
      simp
    · cases h : splitOnNl rest with
      | nil => exact absurd h ih
      | cons p ps =>
        rw [splitOnNl_cons_eq c rest hc p ps h]
        simp

theorem nl_not_mem_of_mem_splitOnNl :
    ∀ (s : List Char), ∀ c ∈ splitOnNl s, '\n' ∉ c := by
  intro s
  induction s with
  | nil =>
    intro c hc
    have hc' : c = [] := by simpa [splitOnNl] using hc
    subst hc'
    simp
  | cons d rest ih =>
    intro c hc
    by_cases hd : d = '\n'
    · subst hd
      rw [splitOnNl_cons_nl] at hc
      rcases List.mem_cons.mp hc with h1 | h2
      · subst h1; simp
      · exact ih c h2
    · cases h : splitOnNl rest with
      | nil => exact absurd h (splitOnNl_ne_nil rest)
      | cons p ps =>
        rw [splitOnNl_cons_eq d rest hd p ps h] at hc
        rcases List.mem_cons.mp hc with h1 | h2
        · subst h1
          intro hmem
          rcases List.mem_cons.mp hmem with h3 | h4
          · exact hd h3.symm
          · exact ih p (by rw [h]; exact List.mem_cons_self p ps) h4
        · exact ih c (by rw [h]; exact List.mem_cons_of_mem p h2)

theorem splitOnNl_of_not_mem (l : List Char) (hl : '\n' ∉ l) : splitOnNl l = [l] := by
  induction l with
  | nil => rfl
  | cons c rest ih =>
    have hc : ¬ c = '\n' := by
      intro h
      exact hl (by simp [h])
    have hrest : '\n' ∉ rest := fun h => hl (List.mem_cons_of_mem c h)
    exact splitOnNl_cons_eq c rest hc rest [] (ih hrest)

theorem splitOnNl_append_nl (l t : List Char) (hl : '\n' ∉ l) :
    splitOnNl (l ++ '\n' :: t) = l :: splitOnNl t := by
  induction l with
  | nil =>
    show splitOnNl ('\n' :: t) = [] :: splitOnNl t
    exact splitOnNl_cons_nl t
  | cons c l' ih =>
    have hc : ¬ c = '\n' := by
      intro h
      exact hl (by simp [h])
    have hl' : '\n' ∉ l' := fun h => hl (List.mem_cons_of_mem c h)
    show splitOnNl (c :: (l' ++ '\n' :: t)) = (c :: l') :: splitOnNl t
    exact splitOnNl_cons_eq c _ hc l' (splitOnNl t) (ih hl')

theorem joinNl_cons_cons (l l2 : List Char) (rest : List (List Char)) :
    joinNl (l :: l2 :: rest) = l ++ '\n' :: joinNl (l2 :: rest) := rfl

theorem splitOnNl_joinNl :
    ∀ (L : List (List Char)), L ≠ [] → (∀ l ∈ L, '\n' ∉ l) →
      splitOnNl (joinNl L) = L := by
  intro L
  induction L with
  | nil => intro h _; exact absurd rfl h
  | cons l L' ih =>
    intro _ hmem
    cases L' with
    | nil => exact splitOnNl_of_not_mem l (hmem l (List.mem_cons_self l []))
    | cons l2 rest =>
      rw [joinNl_cons_cons]
      rw [splitOnNl_append_nl l (joinNl (l2 :: rest)) (hmem l (List.mem_cons_self _ _))]
      congr 1
      exact ih (by simp) (fun x hx => hmem x (List.mem_cons_of_mem l hx))

theorem cleanLine_of_splitFirst (l b a : List Char)
    (h : splitFirst marker l = some (b, a)) :
    cleanLine l = stripQuotes (trimList ((splitAllSep marker a).headD [])) := by
  have hparts : splitAllSep marker l = b :: splitAllSep marker a :=
    splitAllSep_cons marker (by decide) l b a h
  have hpos : 0 < (splitAllSep marker a).length :=
    List.length_pos.mpr (splitAllSep_ne_nil marker a)
  simp only [cleanLine, hparts, List.length_cons]
  rw [if_pos (by omega)]
  simp

theorem cleanLine_eq_segment (l : List Char) (h : includesMarker l = true) :
    cleanLine l = stripQuotes (trimList (segmentAfterMarker l)) := by
  rw [includesMarker] at h
  obtain ⟨pr, hpr⟩ := Option.isSome_iff_exists.mp h
  obtain ⟨b, a⟩ := pr
  rw [cleanLine_of_splitFirst l b a hpr]
  cases h2 : splitFirst marker a with
  | none =>
    rw [splitAllSep_of_splitFirst_none marker a h2]
    simp [segmentAfterMarker, hpr, h2]
  | some pr2 =>
    obtain ⟨b2, a2⟩ := pr2
    rw [splitAllSep_cons marker (by decide) a b2 a2 h2]
    simp [segmentAfterMarker, hpr, h2]

theorem extractLines_mem (script : List Char) :
    ∀ l ∈ extractLines script, splitFirst marker l = none ∧ '\n' ∉ l ∧ l ≠ [] := by
  intro l hl
  rw [extractLines] at hl
  obtain ⟨hl1, hl2⟩ := List.mem_filter.mp hl
  obtain ⟨l', hl', rfl⟩ := List.mem_map.mp hl1
  obtain ⟨hline, hinc⟩ := List.mem_filter.mp hl'
  rw [includesMarker] at hinc
  obtain ⟨pr, hpr⟩ := Option.isSome_iff_exists.mp hinc
  obtain ⟨b, a⟩ := pr
  have hclean := cleanLine_of_splitFirst l' b a hpr
  set x := (splitAllSep marker a).headD [] with hx
  have hxmem : x ∈ splitAllSep marker a := by
    cases hsa : splitAllSep marker a with
    | nil => exact absurd hsa (splitAllSep_ne_nil marker a)
    | cons p ps => rw [hx, hsa]; simp
  obtain ⟨hxnone, hxsub⟩ := splitFirst_of_mem_splitAllSep marker (by decide) a x hxmem
  have hsub2 : SubSeg (cleanLine l') x := by
    rw [hclean]
    exact subSeg_trans _ _ _ (subSeg_stripQuotes (trimList x)) (subSeg_trimList x)
  refine ⟨?_, ?_, ?_⟩
  · exact splitFirst_none_of_subSeg marker (by decide) (cleanLine l') x hxnone hsub2
  · intro hmem
    have h1 : ('\n' : Char) ∈ x := mem_of_subSeg _ _ _ hsub2 hmem
    have hsubal : SubSeg a l' := by
      have he := splitFirst_eq_append marker l' b a hpr
      exact ⟨b ++ marker, [], by simp [he]⟩
    have h2 : ('\n' : Char) ∈ a := mem_of_subSeg _ _ _ hxsub h1
    have h3 : ('\n' : Char) ∈ l' := mem_of_subSeg _ _ _ hsubal h2
    exact nl_not_mem_of_mem_splitOnNl script l' hline h3
  · intro hnil
    rw [hnil] at hl2
    simp at hl2

theorem splitAllSep_marker_append (l : List Char) (h : splitFirst marker l = none) :
    splitAllSep marker (marker ++ l) = [[], l] := by
  have h1 : splitFirst marker (marker ++ l) = some ([], l) :=
    splitFirst_sep_append marker (by decide) l
  rw [splitAllSep_cons marker (by decide) (marker ++ l) [] l h1]
  rw [splitAllSep_of_splitFirst_none marker l h]

theorem cleanLine_marker_append (l : List Char) (h : splitFirst marker l = none) :
    cleanLine (marker ++ l) = stripQuotes (trimList l) := by
  have h1 : splitFirst marker (marker ++ l) = some ([], l) :=
    splitFirst_sep_append marker (by decide) l
  rw [cleanLine_of_splitFirst (marker ++ l) [] l h1]
  rw [splitAllSep_of_splitFirst_none marker l h]
  simp

theorem filter_id_eq_nil (x : String) (lib : List SavedConcept)
    (h : lib.any (fun c => c.id == x) = false) :
    lib.filter (fun c => c.id == x) = [] := by
  rw [List.filter_eq_nil_iff]
  intro a ha
  simp only [List.any_eq_false] at h
  exact h a ha

theorem filter_id_length_one (x : String) :
    ∀ (lib : List SavedConcept), (lib.map (fun c => c.id)).Nodup →
      lib.any (fun c => c.id == x) = true →
      (lib.filter (fun c => c.id == x)).length = 1 := by
  intro lib
  induction lib with
  | nil => intro _ h; simp at h
  | cons c rest ih =>
    intro hnd hany
    rw [List.map_cons] at hnd
    obtain ⟨hnotin, hnd'⟩ := List.nodup_cons.mp hnd
    by_cases hc : (c.id == x) = true
    · simp only [List.filter_cons, hc, if_true]
      have hcx : c.id = x := by simpa using hc
      have hrest : rest.any (fun d => d.id == x) = false := by
        by_contra hcon
        rw [Bool.not_eq_false] at hcon
        obtain ⟨d, hd, hdx⟩ := List.any_eq_true.mp hcon
        have hdxe : d.id = x := by simpa using hdx
        exact hnotin (List.mem_map.mpr ⟨d, hd, by rw [hdxe, hcx]⟩)
      rw [filter_id_eq_nil x rest hrest]
      simp
    · have hcf : (c.id == x) = false := by simpa using hc
      simp only [List.filter_cons, hcf, if_false]
      have hany' : rest.any (fun d => d.id == x) = true := by
        simpa [List.any_cons, hcf] using hany
      exact ih hnd' hany'

theorem mem_pcmBytePairs_go :
    ∀ (n : Nat) (bytes : List Nat), bytes.length ≤ n →
      ∀ p ∈ pcmBytePairs bytes, p.1 ∈ bytes ∧ p.2 ∈ bytes := by
  intro n
  induction n with
  | zero =>
    intro bytes h p hp
    have hb : bytes = [] := List.length_eq_zero.mp (Nat.le_zero.mp h)
    subst hb
    simp [pcmBytePairs] at hp
  | succ n ih =>
    intro bytes h p hp
    cases bytes with
    | nil => simp [pcmBytePairs] at hp
    | cons lo rest1 =>
      cases rest1 with
      | nil => simp [pcmBytePairs] at hp
      | cons hi rest =>
        simp only [pcmBytePairs] at hp
        rcases List.mem_cons.mp hp with h1 | h2
        · subst h1
          constructor <;> simp
        · have hlen : rest.length ≤ n := by
            simp only [List.length_cons] at h
            omega
          obtain ⟨ha, hb⟩ := ih rest hlen p h2
          exact ⟨List.mem_cons_of_mem _ (List.mem_cons_of_mem _ ha),
            List.mem_cons_of_mem _ (List.mem_cons_of_mem _ hb)⟩

theorem mem_pcmBytePairs (bytes : List Nat) (p : Nat × Nat)
    (hp : p ∈ pcmBytePairs bytes) : p.1 ∈ bytes ∧ p.2 ∈ bytes :=
  mem_pcmBytePairs_go bytes.length bytes (Nat.le_refl _) p hp

theorem int16FromBytes_bounds (lo hi : Nat) (hlo : lo < 256) (hhi : hi < 256) :
    -32768 ≤ int16FromBytes lo hi ∧ int16FromBytes lo hi ≤ 32767 := by
  rw [int16FromBytes]
  by_cases h : lo + 256 * hi < 32768
  · rw [if_pos h]
    omega
  · rw [if_neg h]
    omega

theorem rat_norm_bounds (i : Int) (h1 : -32768 ≤ i) (h2 : i ≤ 32767) :
    -1 ≤ (i : ℚ) / 32768 ∧ (i : ℚ) / 32768 ≤ 1 := by
  have h1' : (-32768 : ℚ) ≤ (i : ℚ) := by exact_mod_cast h1
  have h2' : ((i : ℚ)) ≤ 32767 := by exact_mod_cast h2
  constructor
  · rw [ le_div_iff₀ (by norm_num : (0:ℚ) < 32768)]
    linarith
  · rw [ div_le_iff₀ (by norm_num : (0:ℚ) < 32768)]
    linarith

theorem getD_mem_or_default (samples : List ℚ) (idx : Nat) :
    samples.getD idx 0 = 0 ∨ samples.getD idx 0 ∈ samples := by
  by_cases h : idx < samples.length
  · right
    rw [List.getD_eq_getElem?_getD, List.getElem?_eq_getElem h]
    simp only [Option.getD_some]
    exact List.getElem_mem h
  · left
    rw [List.getD_eq_getElem?_getD, List.getElem?_eq_none (Nat.le_of_not_lt h)]
    rfl

theorem runAudioSession_some (c : Nat) :
    ∀ (fs : List Nat),
      runAudioSession (some c) fs = (List.replicate fs.length c, some c) := by
  intro fs
  induction fs with
  | nil => rfl
  | cons f rest ih =>
    simp only [runAudioSession, audioInvoke, ih]
    simp [List.replicate_succ]

/-! ## Claim theorems -/

/-- C1: the claimed stale-selection suppression does not hold in the code —
this theorem evaluates the embedded `handleSelectConcept` semantics on the
failing trace: selection A dispatches an image request, selection B follows,
then A's request resolves; the trace is well formed, yet the final state shows
B selected while the displayed preview image is A's (the resolution handler at
App.tsx line 96 stores any resolved image without comparing the request's
concept with the current selection), contradicting the claim that A's result
is discarded and the preview is B's or empty. -/
theorem stale_image_overwrites_selection :
    wfTrace [PreviewEvent.selectConcept conceptA, PreviewEvent.selectConcept conceptB,
      PreviewEvent.imageResolved conceptA "image-for-A"] = true ∧
    runPreview initialPreviewState
        [PreviewEvent.selectConcept conceptA, PreviewEvent.selectConcept conceptB,
          PreviewEvent.imageResolved conceptA "image-for-A"] =
      ⟨some conceptB, some "image-for-A", false⟩ := by
  decide

/-- C2 counterexample: on a line where the caption marker occurs twice, the
code (`parts[1]` of the full split) keeps only the text up to the second
marker, while the spec's wording ("the substring following the marker") keeps
everything after the first marker; the two extractors disagree on
`scriptTwoMarkers`. -/
theorem caption_extraction_spec_counterexample :
    extractCaptions scriptTwoMarkers ≠ extractCaptionsSpec scriptTwoMarkers := by
  decide

/-- C2 (amended): for every script, the extractor splits the input into lines,
keeps exactly the lines containing the marker, for each kept line takes the
substring following the marker *up to the next occurrence of the marker* (to
the end of the line when the marker occurs once), trims it, strips one
leading and one trailing quote if present, drops lines that became empty,
and joins the rest with newlines in order; it is total and returns the empty
string when no line contains the marker. -/
theorem caption_extraction_amended (script : List Char) :
    extractCaptions script = extractCaptionsAmended script ∧
    ((splitOnNl script).all (fun l => !includesMarker l) = true →
      extractCaptions script = []) := by
  constructor
  · rw [extractCaptions, extractLines, extractCaptionsAmended]
    have hmap : ((splitOnNl script).filter (fun l => includesMarker l)).map cleanLine =
        ((splitOnNl script).filter (fun l => includesMarker l)).map
          (fun l => stripQuotes (trimList (segmentAfterMarker l))) :=
      List.map_congr_left
        (fun l hl => cleanLine_eq_segment l (List.mem_filter.mp hl).2)
    rw [hmap]
  · intro hall
    have hfil : (splitOnNl script).filter (fun l => includesMarker l) = [] := by
      rw [List.filter_eq_nil_iff]
      intro a ha
      have h2 := List.all_eq_true.mp hall a ha
      simp only [Bool.not_eq_true'] at h2
      simp [h2]
    rw [extractCaptions, extractLines, hfil]
    rfl

/-- C2 witness: the amended equality evaluated on a concrete well-behaved
script, and the empty result on a marker-free script. -/
theorem caption_extraction_amended_witness :
    extractCaptions scriptHello = extractCaptionsAmended scriptHello ∧
    extractCaptions ['x'] = [] :=
  ⟨(caption_extraction_amended scriptHello).1,
    (caption_extraction_amended ['x']).2 (by decide)⟩

/-- C3: `handleRecommend` reports the inline validation error (and issues no
request) exactly when the keywords are blank and either the category is
SELF_IMPROVEMENT or the featured-figure name is also blank — equivalently:
SELF_IMPROVEMENT with blank keywords, or QUOTES with blank name and blank
keywords; in every other case the single outbound request is issued with the
given inputs.  "Blank" is emptiness after `trim()`, as in the source's
`!keywords.trim()` check. -/
theorem recommend_validation (cat : ContentCategory) (kw : List Char)
    (vm : VisualMode) (nm : List Char) :
    (handleRecommend cat kw vm nm = RecommendOutcome.validationError ↔
      (cat = ContentCategory.SELF_IMPROVEMENT ∧ trimList kw = []) ∨
        (cat = ContentCategory.QUOTES ∧ trimList nm = [] ∧ trimList kw = [])) ∧
    (handleRecommend cat kw vm nm ≠ RecommendOutcome.validationError →
      handleRecommend cat kw vm nm = RecommendOutcome.requestIssued cat kw vm nm) := by
  cases cat with
  | QUOTES =>
    by_cases hk : trimList kw = [] <;> by_cases hn : trimList nm = [] <;>
      simp [handleRecommend, hk, hn]
  | SELF_IMPROVEMENT =>
    by_cases hk : trimList kw = [] <;> simp [handleRecommend, hk]

/-- C3 witness: a SELF_IMPROVEMENT request with empty keywords fails
validation; a QUOTES request with keywords issues the request. -/
theorem recommend_validation_witness :
    handleRecommend ContentCategory.SELF_IMPROVEMENT [] VisualMode.REALISTIC [] =
      RecommendOutcome.validationError ∧
    handleRecommend ContentCategory.QUOTES ['k'] VisualMode.REALISTIC [] =
      RecommendOutcome.requestIssued ContentCategory.QUOTES ['k']
        VisualMode.REALISTIC [] :=
  ⟨(recommend_validation ContentCategory.SELF_IMPROVEMENT [] VisualMode.REALISTIC
      []).1.mpr (Or.inl ⟨rfl, rfl⟩),
    (recommend_validation ContentCategory.QUOTES ['k'] VisualMode.REALISTIC []).2
      (by decide)⟩

/-- C4: on a library whose ids are pairwise distinct, `handleSaveConcept`
keeps the ids pairwise distinct; saving an id that is already present
returns `alreadyExists` and leaves the collection unchanged; and saving the
same id twice (in any starting library) ends with `alreadyExists` on the
second call and exactly one entry carrying that id. -/
theorem library_dedup (lib : List SavedConcept) (sel sel' : ShortsConcept)
    (cat cat' : ContentCategory) (now now' : Nat)
    (hid : sel'.id = sel.id)
    (hnd : (lib.map (fun c => c.id)).Nodup) :
    ((handleSaveConcept sel cat now lib).2.map (fun c => c.id)).Nodup ∧
    (lib.any (fun c => c.id == sel.id) = true →
      handleSaveConcept sel cat now lib = (SaveResult.alreadyExists, lib)) ∧
    ((handleSaveConcept sel' cat' now' (handleSaveConcept sel cat now lib).2).1 =
        SaveResult.alreadyExists ∧
      ((handleSaveConcept sel' cat' now' (handleSaveConcept sel cat now lib).2).2.filter
          (fun c => c.id == sel.id)).length = 1) := by
  by_cases h : lib.any (fun c => c.id == sel.id) = true
  · have hsave : handleSaveConcept sel cat now lib = (SaveResult.alreadyExists, lib) := by
      rw [handleSaveConcept, if_pos h]
    have h' : lib.any (fun c => c.id == sel'.id) = true := by rw [hid]; exact h
    have hsave' : handleSaveConcept sel' cat' now' lib = (SaveResult.alreadyExists, lib) := by
      rw [handleSaveConcept, if_pos h']
    refine ⟨?_, fun _ => hsave, ?_⟩
    · rw [hsave]
      exact hnd
    · rw [hsave]
      simp only [hsave']
      exact ⟨trivial, filter_id_length_one sel.id lib hnd h⟩
  · have hsave : handleSaveConcept sel cat now lib =
        (SaveResult.ok, ⟨sel, now, cat⟩ :: lib) := by
      rw [handleSaveConcept, if_neg h]
    have hf : lib.any (fun c => c.id == sel.id) = false := by
      cases hh : lib.any (fun c => c.id == sel.id) with
      | false => rfl
      | true => exact absurd hh h
    refine ⟨?_, fun hcon => absurd hcon h, ?_⟩
    · rw [hsave]
      simp only [List.map_cons]
      rw [List.nodup_cons]
      refine ⟨?_, hnd⟩
      intro hmem
      obtain ⟨d, hd, hde⟩ := List.mem_map.mp hmem
      have hdb : (d.id == sel.id) = true := by simp [hde]
      have hany : lib.any (fun c => c.id == sel.id) = true :=
        List.any_eq_true.mpr ⟨d, hd, hdb⟩
      exact absurd hany h
    · rw [hsave]
      have h2 : (⟨sel, now, cat⟩ :: lib).any (fun c => c.id == sel'.id) = true := by
        simp [List.any_cons, hid]
      have hsave2 : handleSaveConcept sel' cat' now' (⟨sel, now, cat⟩ :: lib) =
          (SaveResult.alreadyExists, ⟨sel, now, cat⟩ :: lib) := by
        rw [handleSaveConcept, if_pos h2]
      simp only [hsave2]
      refine ⟨trivial, ?_⟩
      simp only [List.filter_cons]
      have hbeq : ((⟨sel, now, cat⟩ : SavedConcept).id == sel.id) = true := by simp
      rw [hbeq]
      simp only [if_true]
      rw [filter_id_eq_nil sel.id lib hf]
      rfl

/-- C4 witness: saving the same concrete concept twice into an empty library
returns `alreadyExists` the second time and leaves exactly one entry with
that id. -/
theorem library_dedup_witness :
    (handleSaveConcept conceptA ContentCategory.QUOTES 5
        (handleSaveConcept conceptA ContentCategory.QUOTES 4 []).2).1 =
      SaveResult.alreadyExists ∧
    ((handleSaveConcept conceptA ContentCategory.QUOTES 5
        (handleSaveConcept conceptA ContentCategory.QUOTES 4 []).2).2.filter
        (fun c => c.id == conceptA.id)).length = 1 :=
  (library_dedup [] conceptA conceptA ContentCategory.QUOTES ContentCategory.QUOTES
    4 5 rfl (by decide)).2.2

/-- C5: every successful save prepends the entry built from the concept, the
save time and the category, so saving three concepts with distinct ids
X, Y, Z into an empty library yields the list [Z, Y, X] — newest first. -/
theorem library_save_order (cX cY cZ : ShortsConcept) (cat1 cat2 cat3 : ContentCategory)
    (t1 t2 t3 : Nat) (hxy : cX.id ≠ cY.id) (hxz : cX.id ≠ cZ.id) (hyz : cY.id ≠ cZ.id) :
    (∀ (sel : ShortsConcept) (cat : ContentCategory) (now : Nat)
        (lib : List SavedConcept),
      lib.any (fun c => c.id == sel.id) = false →
        handleSaveConcept sel cat now lib = (SaveResult.ok, ⟨sel, now, cat⟩ :: lib)) ∧
    (handleSaveConcept cZ cat3 t3
        (handleSaveConcept cY cat2 t2 (handleSaveConcept cX cat1 t1 []).2).2).2 =
      [⟨cZ, t3, cat3⟩, ⟨cY, t2, cat2⟩, ⟨cX, t1, cat1⟩] := by
  have hxyb : (cX.id == cY.id) = false := beq_eq_false_iff_ne.mpr hxy
  have hxzb : (cX.id == cZ.id) = false := beq_eq_false_iff_ne.mpr hxz
  have hyzb : (cY.id == cZ.id) = false := beq_eq_false_iff_ne.mpr hyz
  constructor
  · intro sel cat now lib hany
    rw [handleSaveConcept, if_neg (by simp [hany])]
  · simp [handleSaveConcept, List.any_cons, hxyb, hxzb, hyzb]

/-- C5 witness: saving three concrete concepts in order A, B, C yields the
library [C, B, A]. -/
theorem library_save_order_witness :
    (handleSaveConcept conceptC ContentCategory.SELF_IMPROVEMENT 3
        (handleSaveConcept conceptB ContentCategory.QUOTES 2
          (handleSaveConcept conceptA ContentCategory.QUOTES 1 []).2).2).2 =
      [⟨conceptC, 3, ContentCategory.SELF_IMPROVEMENT⟩,
        ⟨conceptB, 2, ContentCategory.QUOTES⟩,
        ⟨conceptA, 1, ContentCategory.QUOTES⟩] :=
  (library_save_order conceptA conceptB conceptC ContentCategory.QUOTES
    ContentCategory.QUOTES ContentCategory.SELF_IMPROVEMENT 1 2 3
    (by decide) (by decide) (by decide)).2

/-- C6: initializing the library from durable storage is fail-open — a
missing slot or a payload the parser rejects yields the empty collection,
while a parsable non-empty payload yields exactly the stored collection. -/
theorem load_fail_open (parse : List Char → Option (List SavedConcept)) :
    loadSavedConcepts parse none = [] ∧
    (∀ s, parse s = none → loadSavedConcepts parse (some s) = []) ∧
    (∀ s l, s ≠ [] → parse s = some l → loadSavedConcepts parse (some s) = l) := by
  refine ⟨rfl, ?_, ?_⟩
  · intro s hp
    rw [loadSavedConcepts]
    by_cases hs : s.isEmpty = true
    · rw [if_pos hs]
    · rw [if_neg hs, hp]
      rfl
  · intro s l hs hp
    have hse : s.isEmpty = false := by
      cases s with
      | nil => exact absurd rfl hs
      | cons c t => rfl
    rw [loadSavedConcepts, if_neg (by simp [hse]), hp]
    rfl

/-- C6 witness: a parser that always fails yields the empty collection; a
parser returning the stored empty collection yields it. -/
theorem load_fail_open_witness :
    loadSavedConcepts (fun _ => none) (some ['x']) = [] ∧
    loadSavedConcepts (fun _ => some []) (some ['x']) = [] :=
  ⟨(load_fail_open (fun _ => none)).2.1 ['x'] rfl,
    (load_fail_open (fun _ => some [])).2.2 ['x'] [] (by decide) rfl⟩

/-- C7: every sample produced by `pcmToWaveform` is a signed 16-bit value
divided by 32768, hence lies in [-1, 1]; the byte pair 0xFF 0x7F decodes to
exactly 32767/32768 and the byte pair 0x00 0x80 decodes to exactly -1. -/
theorem pcm_normalization (bytes : List Nat) (sr C : Nat)
    (hb : ∀ b ∈ bytes, b < 256) :
    (∀ chan ∈ (pcmToWaveform bytes sr C).channels, ∀ x ∈ chan,
      (∃ i : Int, -32768 ≤ i ∧ i ≤ 32767 ∧ x = (i : ℚ) / 32768) ∧
        -1 ≤ x ∧ x ≤ 1) ∧
    pcmToWaveform [255, 127] 24000 1 = ⟨24000, [[(32767 : ℚ) / 32768]]⟩ ∧
    pcmToWaveform [0, 128] 24000 1 = ⟨24000, [[-1]]⟩ := by
  refine ⟨?_, ?_, ?_⟩
  · intro chan hchan x hx
    simp only [pcmToWaveform] at hchan
    obtain ⟨ch, hch, rfl⟩ := List.mem_map.mp hchan
    obtain ⟨k, hk, rfl⟩ := List.mem_map.mp hx
    set samples :=
      (pcmBytePairs bytes).map (fun p => (int16FromBytes p.1 p.2 : ℚ) / 32768)
      with hsamp
    rcases getD_mem_or_default samples (k * C + ch) with h0 | hmem
    · rw [h0]
      exact ⟨⟨0, by norm_num, by norm_num, by norm_num⟩, by norm_num, by norm_num⟩
    · rw [hsamp] at hmem
      obtain ⟨p, hp, hpe⟩ := List.mem_map.mp hmem
      obtain ⟨h1, h2⟩ := mem_pcmBytePairs bytes p hp
      obtain ⟨hl, hr⟩ := int16FromBytes_bounds p.1 p.2 (hb p.1 h1) (hb p.2 h2)
      rw [← hpe]
      exact ⟨⟨int16FromBytes p.1 p.2, hl, hr, rfl⟩,
        rat_norm_bounds (int16FromBytes p.1 p.2) hl hr⟩
  · rw [pcmToWaveform]
    norm_num [pcmBytePairs, int16FromBytes, List.range_succ]
  · rw [pcmToWaveform]
    norm_num [pcmBytePairs, int16FromBytes, List.range_succ]

/-- C7 witness: the min-negative sample decoded at the concrete byte pair. -/
theorem pcm_normalization_witness :
    (∀ b ∈ ([0, 128] : List Nat), b < 256) ∧
    pcmToWaveform [0, 128] 24000 1 = ⟨24000, [[-1]]⟩ :=
  ⟨by decide, (pcm_normalization [0, 128] 24000 1 (by decide)).2.2⟩

/-- C8 counterexample: extraction is not idempotent as claimed — on the
script whose caption text is ` \"\"\"` the first extraction yields a single
quote character, and re-extracting its re-wrapped output strips that quote
and drops the line, yielding the empty text. -/
theorem caption_idempotence_counterexample :
    extractCaptions (rewrapCaptions (extractCaptions scriptTripleQuote)) ≠
      extractCaptions scriptTripleQuote := by
  decide

/-- C8 (amended): re-running the extraction on its own re-wrapped output
reproduces the first output exactly when every extracted line is stable
under one more trim-and-quote-strip (which the counterexample shows is not
automatic); under that stability hypothesis the extraction is idempotent
for every script. -/
theorem caption_idempotent_on_stable_lines (script : List Char)
    (h : ∀ l ∈ extractLines script, stripQuotes (trimList l) = l) :
    extractCaptions (rewrapCaptions (extractCaptions script)) =
      extractCaptions script := by
  cases hL : extractLines script with
  | nil =>
    have h0 : extractCaptions script = [] := by
      rw [extractCaptions, hL]
      rfl
    rw [h0]
    decide
  | cons l0 ls =>
    have hprops := extractLines_mem script
    have hnl : ∀ l ∈ l0 :: ls, '\n' ∉ l :=
      fun l hl => ((hprops l (by rw [hL]; exact hl)).2).1
    have hmk : ∀ l ∈ l0 :: ls, splitFirst marker l = none :=
      fun l hl => (hprops l (by rw [hL]; exact hl)).1
    have hne : ∀ l ∈ l0 :: ls, l ≠ [] :=
      fun l hl => ((hprops l (by rw [hL]; exact hl)).2).2
    have hstab : ∀ l ∈ l0 :: ls, stripQuotes (trimList l) = l :=
      fun l hl => h l (by rw [hL]; exact hl)
    have hec : extractCaptions script = joinNl (l0 :: ls) := by
      rw [extractCaptions, hL]
    rw [hec, rewrapCaptions]
    rw [splitOnNl_joinNl (l0 :: ls) (by simp) hnl]
    set M := (l0 :: ls).map (fun l => marker ++ l) with hM
    have hMne : M ≠ [] := by rw [hM]; simp
    have hMnl : ∀ m ∈ M, '\n' ∉ m := by
      intro m hm
      rw [hM] at hm
      obtain ⟨l, hl, rfl⟩ := List.mem_map.mp hm
      intro hcon
      rcases List.mem_append.mp hcon with h1 | h2
      · exact (by decide : ('\n' : Char) ∉ marker) h1
      · exact hnl l hl h2
    rw [extractCaptions, extractLines]
    rw [splitOnNl_joinNl M hMne hMnl]
    have hfil : M.filter (fun l => includesMarker l) = M := by
      rw [List.filter_eq_self]
      intro m hm
      rw [hM] at hm
      obtain ⟨l, hl, rfl⟩ := List.mem_map.mp hm
      rw [includesMarker, splitFirst_sep_append marker (by decide) l]
      rfl
    rw [hfil]
    have hmap : M.map cleanLine = l0 :: ls := by
      rw [hM, List.map_map]
      have hcongr : ∀ l ∈ l0 :: ls, (cleanLine ∘ fun l => marker ++ l) l = id l := by
        intro l hl
        simp only [Function.comp_apply, id_eq]
        rw [cleanLine_marker_append l (hmk l hl)]
        exact hstab l hl
      rw [List.map_congr_left hcongr, List.map_id]
    rw [hmap]
    have hfil2 : (l0 :: ls).filter (fun s => !s.isEmpty) = l0 :: ls := by
      rw [List.filter_eq_self]
      intro a ha
      cases hcase : a with
      | nil => exact absurd hcase (hne a ha)
      | cons x xs => simp
    rw [hfil2]

/-- C8 witness: idempotence holds on a concrete well-behaved script whose
single extracted line is trim- and quote-stable. -/
theorem caption_idempotent_witness :
    extractCaptions (rewrapCaptions (extractCaptions scriptHello)) =
      extractCaptions scriptHello :=
  caption_idempotent_on_stable_lines scriptHello (by decide)

/-- C9: within one session the audio output context is created lazily at most
once and shared — starting with no context, the first invocation creates one
and every later invocation plays through that same context, which is still
installed (never torn down) at the end; starting with an existing context, no
invocation ever creates another. -/
theorem audio_context_created_once (c f : Nat) (fs rest : List Nat) :
    runAudioSession (some c) fs = (List.replicate fs.length c, some c) ∧
    runAudioSession none (f :: rest) = (f :: List.replicate rest.length f, some f) := by
  refine ⟨runAudioSession_some c fs, ?_⟩
  simp only [runAudioSession, audioInvoke, runAudioSession_some f rest]

/-- C10: `handleSelectConcept` uses the concept's title as the image prompt
both when the scene list is empty and when the first scene's prompt is the
empty string (the `visualScenes[0]?.prompt || title` fallback); a non-empty
first prompt is used as is. -/
theorem image_prompt_fallback (c : ShortsConcept) :
    (c.visualScenes = [] → imagePromptForConcept c = c.title) ∧
    (∀ s rest, c.visualScenes = s :: rest →
      ((s.prompt = "" → imagePromptForConcept c = c.title) ∧
        (s.prompt ≠ "" → imagePromptForConcept c = s.prompt))) := by
  constructor
  · intro h
    simp [imagePromptForConcept, h]
  · intro s rest h
    constructor
    · intro hp
      simp [imagePromptForConcept, h, hp]
    · intro hp
      simp [imagePromptForConcept, h, hp]

/-- C10 witness: the fallback evaluated on a concept whose first scene has an
empty prompt and on a concept with no scenes. -/
theorem image_prompt_fallback_witness :
    imagePromptForConcept conceptEmptyPrompt = conceptEmptyPrompt.title ∧
    imagePromptForConcept conceptC = conceptC.title :=
  ⟨((image_prompt_fallback conceptEmptyPrompt).2 ⟨1, "desc", ""⟩ [] rfl).1 rfl,
    (image_prompt_fallback conceptC).1 rfl⟩
